import Mathlib

/-!
Verification of the `cargo-links` link checker (`src/src/main.rs`) against its
natural-language specification.

The development shallowly embeds the pieces of `main.rs` that the claims are
about: the regex link matcher (line 46), the per-file / per-line scanning loop
(lines 71-113), the worker-pool dispatch (lines 51, 100-105), and the
aggregation loop with its exit status (lines 115-139).  The `Link` data type
and its `verify` method live in `link.rs`, which is not part of the sources;
they are modelled from the spec where noted.
-/

namespace CargoLinks

/-- From spec §3 (`VerificationOutcome`) and the `match` arms in
`src/src/main.rs` lines 117-131: the three terminal classifications.
`Questionable` carries a reason string (printed unconditionally at line 122);
`Unreachable` carries an optional reason (matched on at lines 126-129). -/
inductive LinkStatus where
  | Reachable : LinkStatus
  | Questionable : String → LinkStatus
  | Unreachable : Option String → LinkStatus
deriving DecidableEq, Repr

/-- Modelled from the spec: the `Link` struct is defined in `link.rs`, which is
absent from the sources.  Spec §3 gives its fields: source path, 1-based line
number, raw target text, and an optional status that is absent until
verification completes.  `Link::new` (used at `main.rs` line 98) constructs it
with the three identity fields. -/
structure Link where
  source_path : String
  line_number : Nat
  target : String
  status : Option LinkStatus
deriving DecidableEq, Repr

/-- `Link::new(path, lnum, raw)` as called at `main.rs` line 98: a fresh link
has no status yet (spec §3: "absent until verification completes"). -/
def Link.new (source_path : String) (line_number : Nat) (target : String) : Link :=
  { source_path := source_path, line_number := line_number, target := target, status := none }

/-- Modelled from the spec: `Link::verify` is in the absent `link.rs`.
Per spec §4.2 every verification "must never leave status absent" and always
resolves to a terminal status; the network's behaviour is abstracted as a
function `net` from the target text to the outcome it produces.  `verify`
mutates the link's status in place (`main.rs` line 103). -/
def Link.verify (net : String → LinkStatus) (l : Link) : Link :=
  { l with status := some (net l.target) }

/-! ## The link matcher

`main.rs` line 46 builds the regex `\[[^\[\]]+\]\(([^\(\)]+)\)`.  Because each
character class excludes the delimiter that follows it, greedy matching is
deterministic: a match at a position is forced, no backtracking can produce a
different one.  We embed it as a function on character lists. -/

/-- A character allowed in the label part `[^\[\]]+` of the regex. -/
def isLabelChar (c : Char) : Bool := c ≠ '[' && c ≠ ']'

/-- A character allowed in the target part `[^\(\)]+` (capture group 1). -/
def isTargetChar (c : Char) : Bool := c ≠ '(' && c ≠ ')'

/-- Attempt to match the regex of `main.rs` line 46 at the head of `l`.
On success, returns the text captured by group 1 together with the characters
remaining after the whole match. -/
def matchLinkAt (l : List Char) : Option (List Char × List Char) :=
  match l with
  | '[' :: rest =>
    let lab := rest.takeWhile isLabelChar
    let rest1 := rest.dropWhile isLabelChar
    if lab.isEmpty then none
    else
      match rest1 with
      | ']' :: '(' :: rest2 =>
        let tgt := rest2.takeWhile isTargetChar
        let rest3 := rest2.dropWhile isTargetChar
        if tgt.isEmpty then none
        else
          match rest3 with
          | ')' :: rest4 => some (tgt, rest4)
          | _ => none
      | _ => none
  | _ => none

/-- One step of `Matcher::captures_iter` (`main.rs` line 93): scan left to
right; at each position try to match; on a match, emit capture group 1 and
resume after the end of the match (non-overlapping, leftmost-first).  The
fuel argument (an embedding artifact) is consumed one unit per position
examined; the scan consumes at least one character per step, so fuel equal to
the length of the input suffices (`findLinks`). -/
def findLinksFuel : Nat → List Char → List (List Char)
  | 0, _ => []
  | _ + 1, [] => []
  | fuel + 1, c :: rest =>
    match matchLinkAt (c :: rest) with
    | some (tgt, rest') => tgt :: findLinksFuel fuel rest'
    | none => findLinksFuel fuel rest

/-- All capture-group-1 texts produced by iterating the matcher over a line,
in order of occurrence (embeds `captures_iter` at `main.rs` line 93 together
with `let raw = line[m].to_string()` at line 96: the capture is taken
byte-for-byte from the line). -/
def findLinks (l : List Char) : List (List Char) :=
  findLinksFuel l.length l

/-- The exact shape of a substring matched by the regex of `main.rs` line 46:
a label enclosed in square brackets immediately followed by a target enclosed
in parentheses; group 1 captures the target. -/
def linkOcc (lab tgt : List Char) : List Char :=
  '[' :: lab ++ ']' :: '(' :: tgt ++ [')']

/-- A valid label for the regex: nonempty, no square brackets. -/
def validLabel (lab : List Char) : Prop := lab ≠ [] ∧ ∀ c ∈ lab, isLabelChar c

/-- A valid target for the regex: nonempty, no parentheses. -/
def validTarget (tgt : List Char) : Prop := tgt ≠ [] ∧ ∀ c ∈ tgt, isTargetChar c

instance (lab : List Char) : Decidable (validLabel lab) := by
  unfold validLabel; infer_instance

instance (tgt : List Char) : Decidable (validTarget tgt) := by
  unfold validTarget; infer_instance

/-- `findLinksFuel` annotated with the absolute position (0-based character
index) at which each match starts; used to state that one occurrence yields
exactly one capture.  `Prod.snd` of the result recovers `findLinksFuel`. -/
def findLinksPosFuel : Nat → Nat → List Char → List (Nat × List Char)
  | 0, _, _ => []
  | _ + 1, _, [] => []
  | fuel + 1, i, c :: rest =>
    match matchLinkAt (c :: rest) with
    | some (tgt, rest') =>
      (i, tgt) :: findLinksPosFuel fuel (i + ((c :: rest).length - rest'.length)) rest'
    | none => findLinksPosFuel fuel (i + 1) rest

/-- The captures of a line together with the position where each match
starts. -/
def findLinksPos (l : List Char) : List (Nat × List Char) :=
  findLinksPosFuel l.length 0 l

/-- No match of the regex starting strictly before position `p` of `line`
extends past `p`.  (`line.length - rest'.length` is the position just after
the end of a match at `j` that leaves `rest'` unconsumed.)  Under this
condition the leftmost non-overlapping scan is guaranteed to reach the
occurrence starting at `p`. -/
def noOverlapBefore (line : List Char) (p : Nat) : Prop :=
  ∀ j, j < p → ∀ cap rest', matchLinkAt (line.drop j) = some (cap, rest') →
    line.length - rest'.length ≤ p

instance decForallSomeEq (o : Option (List Char × List Char))
    (q : List Char → List Char → Prop) [∀ a b, Decidable (q a b)] :
    Decidable (∀ cap rest', o = some (cap, rest') → q cap rest') :=
  match o with
  | none => isTrue (by intro cap rest' h; exact absurd h (by simp))
  | some (a, b) =>
    if h : q a b then
      isTrue (by
        intro cap rest' he
        simp only [Option.some.injEq, Prod.mk.injEq] at he
        obtain ⟨h1, h2⟩ := he
        subst h1; subst h2
        exact h)
    else isFalse (fun hall => h (hall a b rfl))

instance (line : List Char) (p : Nat) : Decidable (noOverlapBefore line p) := by
  unfold noOverlapBefore; infer_instance

/-! ## The scanner (`main.rs` lines 71-113)

The `UTF8` sink closure receives each line (with its 1-based line number) and
for every capture increments `n_links` and submits a verification job for a
freshly constructed `Link`.  We record this as an event trace so that the
ordering of the counter increment and the submission is visible. -/

/-- An observable step of the scanning loop body (`main.rs` lines 93-105):
either the `n_links += 1` at line 94 or the `pool.execute` handing the link's
job to the worker pool at line 102. -/
inductive ScanEvent where
  | incCounter : ScanEvent
  | submit : Link → ScanEvent
deriving DecidableEq, Repr

/-- The closure body at `main.rs` lines 93-107, run once per capture `tgt`:
first `n_links += 1`, then `Link::new` and `pool.execute`. -/
def perMatchEvents (path : String) (lnum : Nat) (tgt : List Char) : List ScanEvent :=
  [ScanEvent.incCounter, ScanEvent.submit (Link.new path lnum tgt.asString)]

/-- The event trace produced by scanning a single line (`main.rs` lines
91-111): the per-match steps for each capture, in match order. -/
def scanLineEvents (path : String) (lnum : Nat) (line : List Char) : List ScanEvent :=
  (findLinks line).flatMap (perMatchEvents path lnum)

/-- The links constructed while scanning a single line: one `Link` per capture,
with `source_path`, `line_number` and the captured text as target
(`main.rs` lines 95-98). -/
def scanLine (path : String) (lnum : Nat) (line : List Char) : List Link :=
  (findLinks line).map (fun tgt => Link.new path lnum tgt.asString)

/-- Scanning the lines of one file starting at line number `lnum` (the searcher
reports 1-based line numbers, so a whole file is scanned with `lnum = 1`). -/
def scanLinesFrom (path : String) (lnum : Nat) : List (List Char) → List Link
  | [] => []
  | line :: rest => scanLine path lnum line ++ scanLinesFrom path (lnum + 1) rest

/-- A file as presented to the loop at `main.rs` lines 72-113: `path_str` is
`none` when `path.to_str()` fails because the path is not valid unicode, and
`lines` are the file's text lines. -/
structure ScannedFile where
  path_str : Option String
  lines : List (List Char)

/-- A log message emitted by the scan phase. -/
inductive ScanLog where
  | warnInvalidUnicode : ScanLog
  | debugSearching : String → ScanLog
deriving DecidableEq, Repr

/-- The body of the file loop (`main.rs` lines 72-113) for one file: a path
that is not valid unicode is warned about and skipped (`continue`, lines
74-83); otherwise the file is searched and yields its links. -/
def processFile (f : ScannedFile) : List ScanLog × List Link :=
  match f.path_str with
  | none => ([ScanLog.warnInvalidUnicode], [])
  | some p => ([ScanLog.debugSearching p], scanLinesFrom p 1 f.lines)

/-- The whole scan phase (`main.rs` lines 71-113): every file from the walker
is processed in order; logs and links are accumulated. -/
def runScan : List ScannedFile → List ScanLog × List Link
  | [] => ([], [])
  | f :: rest =>
    ((processFile f).1 ++ (runScan rest).1, (processFile f).2 ++ (runScan rest).2)

/-- The value of `n_links` when the scan finishes (`main.rs` line 94
incremented it once per constructed link). -/
def nLinks (files : List ScannedFile) : Nat :=
  ((runScan files).2).length

/-! ## The worker pool job (`main.rs` lines 100-105)

Each submitted closure verifies its link and then sends it — exactly one
send — on the result channel. -/

/-- The sends performed by the job closure at `main.rs` lines 102-105 for the
link it owns: `link.verify(http_client); tx.send(link).unwrap();`. -/
def jobSends (net : String → LinkStatus) (l : Link) : List Link :=
  [Link.verify net l]

/-! ## The aggregation loop (`main.rs` lines 115-132) -/

/-- A line reported by the aggregation loop, at its log level; the reason is
part of the payload exactly when the source formats it in
(lines 119, 122, 127-128). -/
inductive ReportLine where
  | info : Link → ReportLine
  | warn : Link → String → ReportLine
  | error : Link → Option String → ReportLine
deriving DecidableEq, Repr

/-- One iteration of the aggregation loop (`main.rs` lines 116-131): match on
`link.status.as_ref().unwrap()`.  The result is the reported line and the
amount added to `n_bad_links`; `none` models the process abort when `unwrap`
panics because the status is still absent. -/
def aggStep (l : Link) : Option (ReportLine × Nat) :=
  match l.status with
  | none => none
  | some LinkStatus.Reachable => some (ReportLine.info l, 0)
  | some (LinkStatus.Questionable reason) => some (ReportLine.warn l reason, 0)
  | some (LinkStatus.Unreachable reason) => some (ReportLine.error l reason, 1)

/-- The aggregation loop over the drained results, in arrival order: the
reported lines and the final value of `n_bad_links` (`main.rs` lines
115-132), or `none` if some iteration panicked. -/
def aggregate : List Link → Option (List ReportLine × Nat)
  | [] => some ([], 0)
  | l :: rest => do
    let (line, inc) ← aggStep l
    let (lines, n) ← aggregate rest
    pure (line :: lines, inc + n)

/-- Whether a completed link was classified `Unreachable`. -/
def isUnreachable (l : Link) : Bool :=
  match l.status with
  | some (LinkStatus.Unreachable _) => true
  | _ => false

/-- The process exit code computed at `main.rs` lines 134-139:
`std::process::exit(1)` when `n_bad_links > 0`, otherwise `Ok(())` which
exits with code 0. -/
def exitCode (n_bad_links : Nat) : Nat :=
  if n_bad_links > 0 then 1 else 0

/-- The exit code of a run whose aggregation loop drained `results` (in
arrival order); `none` models an aborted process. -/
def runExit (results : List Link) : Option Nat :=
  (aggregate results).map (fun p => exitCode p.2)

/-- The results the aggregation loop drains from the channel:
`rx.iter().take(n_links)` at `main.rs` line 116. -/
def drainResults (stream : List Link) (n_links : Nat) : List Link :=
  stream.take n_links

/-! ## The worker pool (`main.rs` line 51)

Modelled from the spec: the pool itself is the external `threadpool` crate
(`ThreadPool::new(opt.concurrency)`), whose source is not part of this
repository.  Spec §4.3 describes it: at most `C` workers, each running one
job at a time; submitted jobs wait in a queue until a worker is free.  We
model it as a small-step transition system on pool states and prove the
concurrency bound as an invariant of all reachable states. -/

/-- The state of the worker pool: jobs waiting in the queue, jobs currently
executing on a worker, and jobs that have finished (jobs are identified by
arbitrary tokens `α`). -/
structure PoolState (α : Type) where
  queued : List α
  running : List α
  finished : List α

/-- The transitions of a pool with `C` worker threads: a job may be submitted
at any time (`pool.execute`, `main.rs` line 102); a queued job starts only
when fewer than `C` jobs are running (a worker is free); a running job may
finish. -/
inductive PoolStep (C : Nat) : PoolState α → PoolState α → Prop
  | submit (j : α) (q r f : List α) :
      PoolStep C ⟨q, r, f⟩ ⟨q ++ [j], r, f⟩
  | start (j : α) (q r f : List α) :
      r.length < C →
      PoolStep C ⟨j :: q, r, f⟩ ⟨q, j :: r, f⟩
  | finish (j : α) (q r₁ r₂ f : List α) :
      PoolStep C ⟨q, r₁ ++ j :: r₂, f⟩ ⟨q, r₁ ++ r₂, j :: f⟩

/-- Pool states reachable from the empty pool created at `main.rs` line 51. -/
inductive PoolReach (C : Nat) : PoolState α → Prop
  | init : PoolReach C ⟨[], [], []⟩
  | step {s s' : PoolState α} : PoolReach C s → PoolStep C s s' → PoolReach C s'

/-- Number of `incCounter` events in a scan trace. -/
def countInc (es : List ScanEvent) : Nat :=
  es.countP fun e => match e with | ScanEvent.incCounter => true | _ => false

/-- Number of `submit` events in a scan trace. -/
def countSubmit (es : List ScanEvent) : Nat :=
  es.countP fun e => match e with | ScanEvent.submit _ => true | _ => false

/-! ## Helper lemmas -/

lemma aggStep_of_status (l : Link) (s : LinkStatus) (h : l.status = some s) :
    ∃ line, aggStep l = some (line, if isUnreachable l then 1 else 0) := by
  cases s with
  | Reachable => exact ⟨ReportLine.info l, by simp [aggStep, h, isUnreachable]⟩
  | Questionable r => exact ⟨ReportLine.warn l r, by simp [aggStep, h, isUnreachable]⟩
  | Unreachable r => exact ⟨ReportLine.error l r, by simp [aggStep, h, isUnreachable]⟩

lemma aggregate_spec (results : List Link) (h : ∀ l ∈ results, l.status.isSome) :
    ∃ lines, aggregate results = some (lines, results.countP (fun l => isUnreachable l)) := by
  induction results with
  | nil => exact ⟨[], rfl⟩
  | cons l rest ih =>
    obtain ⟨s, hs⟩ := Option.isSome_iff_exists.mp (h l (List.mem_cons_self l rest))
    obtain ⟨line, hstep⟩ := aggStep_of_status l s hs
    obtain ⟨lines, hrest⟩ := ih (fun x hx => h x (List.mem_cons_of_mem l hx))
    refine ⟨line :: lines, ?_⟩
    simp only [aggregate, hstep, hrest, Option.bind_eq_bind, Option.some_bind,
      List.countP_cons]
    by_cases hb : isUnreachable l <;> simp [hb, Nat.add_comm]

lemma flatMap_jobSends_length (net : String → LinkStatus) (xs : List Link) :
    (xs.flatMap (jobSends net)).length = xs.length := by
  induction xs with
  | nil => rfl
  | cons x rest ih => simp [jobSends, ih]

lemma runScan_append (a b : List ScannedFile) :
    runScan (a ++ b) = ((runScan a).1 ++ (runScan b).1, (runScan a).2 ++ (runScan b).2) := by
  induction a with
  | nil => simp [runScan]
  | cons f rest ih => simp [runScan, ih]

lemma trace_submit_le_inc (path : String) (lnum : Nat) (caps : List (List Char)) :
    ∀ pre post : List ScanEvent,
      caps.flatMap (perMatchEvents path lnum) = pre ++ post →
      countSubmit pre ≤ countInc pre := by
  induction caps with
  | nil =>
    intro pre post hsplit
    have : pre = [] := by
      cases pre with
      | nil => rfl
      | cons e es => simp [List.flatMap] at hsplit
    subst this
    simp [countSubmit, countInc]
  | cons c rest ih =>
    intro pre post hsplit
    match pre with
    | [] => simp [countSubmit, countInc]
    | [e] =>
      have he : e = ScanEvent.incCounter := by
        have := hsplit
        simp [List.flatMap, perMatchEvents] at this
        exact this.1.symm
      subst he
      decide
    | e1 :: e2 :: pre2 =>
      have hmain := hsplit
      simp only [List.flatMap_cons, perMatchEvents, List.cons_append, List.append_assoc,
        List.cons.injEq] at hmain
      obtain ⟨he1, he2, htail⟩ := hmain
      have hle := ih pre2 post (by simpa using htail)
      subst he1; subst he2
      simp only [countSubmit, countInc, List.countP_cons] at *
      omega

/-! ## C1 -/

/-- C1: if the aggregation loop counts zero `Unreachable` results the process
exits with code 0, no matter how many results are `Questionable`; if it counts
at least one `Unreachable` result it exits with code 1
(`main.rs` lines 115-139). -/
theorem exit_code_zero_iff_no_unreachable (results : List Link)
    (h : ∀ l ∈ results, l.status.isSome) :
    (results.countP (fun l => isUnreachable l) = 0 → runExit results = some 0) ∧
    (0 < results.countP (fun l => isUnreachable l) → runExit results = some 1) := by
  obtain ⟨lines, hagg⟩ := aggregate_spec results h
  constructor
  · intro h0
    simp [runExit, hagg, h0, exitCode]
  · intro h1
    simp [runExit, hagg, exitCode, Nat.pos_iff_ne_zero.mp h1, h1]

theorem exit_code_zero_iff_no_unreachable_witness :
    runExit [Link.mk "README.md" 1 "#sec" (some (LinkStatus.Questionable "local")),
             Link.mk "README.md" 2 "http://x" (some (LinkStatus.Unreachable (some "dns")))] =
      some 1 :=
  (exit_code_zero_iff_no_unreachable _ (by decide)).2 (by decide)

/-! ## C2 -/

/-- C2: the number of results drained by the aggregation loop
(`rx.iter().take(n_links)`, `main.rs` line 116) equals the number of `Link`
values constructed during the scan (the final value of `n_links`), for every
arrival order of the results: the stream of sends is some interleaving — a
permutation — of the one send each job performs. -/
theorem drain_count_eq_scan_count (files : List ScannedFile)
    (net : String → LinkStatus) (stream : List Link)
    (hperm : stream.Perm (((runScan files).2).flatMap (jobSends net))) :
    (drainResults stream (nLinks files)).length = nLinks files := by
  have hlen : stream.length = nLinks files := by
    rw [hperm.length_eq, flatMap_jobSends_length]
    rfl
  simp [drainResults, hlen]

theorem drain_count_eq_scan_count_witness :
    (drainResults
        ((((runScan [⟨some "a.md", ["[a](b)".data]⟩]).2)).flatMap
          (jobSends fun _ => LinkStatus.Reachable))
        (nLinks [⟨some "a.md", ["[a](b)".data]⟩])).length =
      nLinks [⟨some "a.md", ["[a](b)".data]⟩] :=
  drain_count_eq_scan_count _ _ _ (List.Perm.refl _)

/-! ## C3 -/

/-- C3: the job closure (`main.rs` lines 102-105) owning a submitted link
sends exactly one link on the result channel — never zero, never more — and
the link it sends is completed (its status is set). -/
theorem job_sends_exactly_one_completed (net : String → LinkStatus) (l : Link) :
    (jobSends net l).length = 1 ∧ ∀ x ∈ jobSends net l, x.status.isSome := by
  refine ⟨rfl, ?_⟩
  intro x hx
  simp [jobSends] at hx
  subst hx
  simp [Link.verify]

/-! ## C4 -/

/-- C4: each drained result is reported at the level dictated by its status —
success line for `Reachable`, warning line carrying the reason for
`Questionable`, error line carrying the optional reason for `Unreachable` —
and the bad-link counter tallies exactly the `Unreachable` results
(`main.rs` lines 115-132). -/
theorem aggregation_classifies_and_counts (l : Link) (results : List Link) :
    (l.status = some LinkStatus.Reachable →
      aggStep l = some (ReportLine.info l, 0)) ∧
    (∀ r, l.status = some (LinkStatus.Questionable r) →
      aggStep l = some (ReportLine.warn l r, 0)) ∧
    (∀ r, l.status = some (LinkStatus.Unreachable r) →
      aggStep l = some (ReportLine.error l r, 1)) ∧
    ((∀ x ∈ results, x.status.isSome) →
      ∃ lines, aggregate results =
        some (lines, results.countP (fun x => isUnreachable x))) := by
  refine ⟨?_, ?_, ?_, ?_⟩
  · intro h; simp [aggStep, h]
  · intro r h; simp [aggStep, h]
  · intro r h; simp [aggStep, h]
  · exact aggregate_spec results

theorem aggregation_classifies_and_counts_witness :
    aggStep (Link.mk "a.md" 3 "#x" (some (LinkStatus.Questionable "no scheme"))) =
      some (ReportLine.warn (Link.mk "a.md" 3 "#x" (some (LinkStatus.Questionable "no scheme")))
        "no scheme", 0) :=
  (aggregation_classifies_and_counts _ []).2.1 "no scheme" rfl

/-! ## C6 -/

/-- C6: scanning a line increments `n_links` exactly once per match
(`main.rs` line 94), and the increment happens in the scanning control flow
before the link's job is handed to the pool: in every prefix of the scan
trace the number of submissions never exceeds the number of increments, and
over the whole trace both equal the number of matches. -/
theorem counter_increment_precedes_submit (path : String) (lnum : Nat)
    (line : List Char) :
    countInc (scanLineEvents path lnum line) = (findLinks line).length ∧
    countSubmit (scanLineEvents path lnum line) = (findLinks line).length ∧
    ∀ pre post : List ScanEvent,
      scanLineEvents path lnum line = pre ++ post →
      countSubmit pre ≤ countInc pre := by
  refine ⟨?_, ?_, ?_⟩
  · unfold scanLineEvents
    induction findLinks line with
    | nil => simp [countInc]
    | cons c rest ih =>
      simp only [List.flatMap_cons, perMatchEvents, countInc, List.countP_append] at *
      simp [List.countP_cons, ih]
      omega
  · unfold scanLineEvents
    induction findLinks line with
    | nil => simp [countSubmit]
    | cons c rest ih =>
      simp only [List.flatMap_cons, perMatchEvents, countSubmit, List.countP_append] at *
      simp [List.countP_cons, ih]
      omega
  · exact trace_submit_le_inc path lnum (findLinks line)

theorem counter_increment_precedes_submit_witness :
    countSubmit [ScanEvent.incCounter] ≤ countInc [ScanEvent.incCounter] :=
  (counter_increment_precedes_submit "a.md" 1 "[a](b)".data).2.2
    [ScanEvent.incCounter] [ScanEvent.submit (Link.new "a.md" 1 "b")] (by decide)

/-! ## C7 -/

/-- C7: a file whose path is not valid unicode is warned about and skipped
(`main.rs` lines 74-83): it contributes no links, the warning is logged, and
every other file is still scanned — the run is not aborted. -/
theorem invalid_unicode_path_skipped (pre post : List ScannedFile)
    (f : ScannedFile) (h : f.path_str = none) :
    (runScan (pre ++ f :: post)).2 = (runScan pre).2 ++ (runScan post).2 ∧
    ScanLog.warnInvalidUnicode ∈ (runScan (pre ++ f :: post)).1 := by
  have hf : processFile f = ([ScanLog.warnInvalidUnicode], []) := by
    simp [processFile, h]
  constructor
  · rw [runScan_append]
    simp [runScan, hf]
  · rw [runScan_append]
    simp [runScan, hf]

theorem invalid_unicode_path_skipped_witness :
    (runScan ([⟨some "a.md", ["[a](b)".data]⟩] ++ ⟨none, ["[x](y)".data]⟩ ::
        [⟨some "c.md", ["[c](d)".data]⟩])).2 =
      (runScan [⟨some "a.md", ["[a](b)".data]⟩]).2 ++
        (runScan [⟨some "c.md", ["[c](d)".data]⟩]).2 :=
  (invalid_unicode_path_skipped _ _ _ rfl).1

/-! ## C8 -/

/-- C8: a line on which the matcher finds no link is simply skipped — it
contributes no links and the scan of the surrounding lines proceeds
unchanged, with their line numbers intact (`main.rs` lines 88-112; the sink
closure always returns `Ok(true)`). -/
theorem unmatched_line_skipped (path : String) (n : Nat)
    (pre post : List (List Char)) (bad : List Char) (h : findLinks bad = []) :
    scanLinesFrom path n (pre ++ bad :: post) =
      scanLinesFrom path n pre ++
        scanLine path (n + pre.length) bad ++
        scanLinesFrom path (n + pre.length + 1) post ∧
    scanLine path (n + pre.length) bad = [] := by
  constructor
  · induction pre generalizing n with
    | nil => simp [scanLinesFrom]
    | cons p rest ih =>
      have h1 : scanLinesFrom path n ((p :: rest) ++ bad :: post) =
          scanLine path n p ++ scanLinesFrom path (n + 1) (rest ++ bad :: post) := rfl
      have h2 : scanLinesFrom path n (p :: rest) =
          scanLine path n p ++ scanLinesFrom path (n + 1) rest := rfl
      rw [h1, ih (n + 1), h2]
      have e1 : n + 1 + rest.length = n + (p :: rest).length := by simp; omega
      rw [e1]
      simp [List.append_assoc]
  · simp [scanLine, h]

theorem unmatched_line_skipped_witness :
    scanLinesFrom "a.md" 1 (["[a](b)".data] ++ "plain text".data :: ["[c](d)".data]) =
      scanLinesFrom "a.md" 1 ["[a](b)".data] ++
        scanLine "a.md" 2 "plain text".data ++
        scanLinesFrom "a.md" 3 ["[c](d)".data] :=
  (unmatched_line_skipped "a.md" 1 ["[a](b)".data] ["[c](d)".data] "plain text".data
    (by decide)).1

/-! ## C9 -/

/-- C9: in every pool state reachable from the empty pool with `C ≥ 1` worker
threads (`ThreadPool::new(opt.concurrency)`, `main.rs` line 51), at most `C`
jobs are running simultaneously; a submitted job starts only when a worker is
free, otherwise it waits in the queue. -/
theorem pool_concurrency_bound {α : Type} (C : Nat) (_hC : 1 ≤ C)
    (s : PoolState α) (h : PoolReach C s) :
    s.running.length ≤ C := by
  induction h with
  | init => simp
  | step hreach hstep ih =>
    cases hstep with
    | submit j q r f => exact ih
    | start j q r f hlt => simpa using hlt
    | finish j q r₁ r₂ f =>
      simp only [List.length_append, List.length_cons] at ih ⊢
      omega

theorem pool_concurrency_bound_witness :
    (PoolState.mk ([] : List Nat) [] []).running.length ≤ 10 :=
  pool_concurrency_bound 10 (by decide) _ PoolReach.init

/-! ## C10 -/

/-- C10: the aggregation loop unwraps `link.status` without a fallback
(`main.rs` line 117): whenever the received link's status is set the step
succeeds (no panic), and a link whose status is still absent makes the step
panic, aborting the process (modelled as `none`). -/
theorem aggregation_unwrap_safety (l : Link) :
    (∀ s, l.status = some s → (aggStep l).isSome) ∧
    (l.status = none → aggStep l = none) := by
  constructor
  · intro s hs
    obtain ⟨line, hstep⟩ := aggStep_of_status l s hs
    simp [hstep]
  · intro h
    simp [aggStep, h]

theorem aggregation_unwrap_safety_witness :
    aggStep (Link.new "a.md" 1 "b") = none :=
  (aggregation_unwrap_safety (Link.new "a.md" 1 "b")).2 rfl

/-! ## C5: lemmas about the matcher -/

lemma takeWhile_append_all (p : Char → Bool) (xs : List Char) (c : Char)
    (rest : List Char) (hall : ∀ x ∈ xs, p x = true) (hc : p c = false) :
    (xs ++ c :: rest).takeWhile p = xs ∧ (xs ++ c :: rest).dropWhile p = c :: rest := by
  induction xs with
  | nil =>
    constructor
    · simp [List.takeWhile_cons, hc]
    · simp [List.dropWhile_cons, hc]
  | cons x xs ih =>
    have hx : p x = true := hall x (by simp)
    have hrec := ih (fun y hy => hall y (by simp [hy]))
    constructor
    · simp [List.takeWhile_cons_of_pos hx, hrec.1]
    · simp [List.dropWhile_cons_of_pos hx, hrec.2]

lemma matchLinkAt_complete (lab tgt rest : List Char)
    (hlab : validLabel lab) (htgt : validTarget tgt) :
    matchLinkAt (linkOcc lab tgt ++ rest) = some (tgt, rest) := by
  obtain ⟨hlabne, hlaball⟩ := hlab
  obtain ⟨htgtne, htgtall⟩ := htgt
  have hshape : linkOcc lab tgt ++ rest =
      '[' :: (lab ++ ']' :: '(' :: (tgt ++ ')' :: rest)) := by
    simp [linkOcc]
  have hlabtw := takeWhile_append_all isLabelChar lab ']'
    ('(' :: (tgt ++ ')' :: rest)) (fun x hx => hlaball x hx) (by decide)
  have htgttw := takeWhile_append_all isTargetChar tgt ')' rest
    (fun x hx => htgtall x hx) (by decide)
  rw [hshape]
  simp only [matchLinkAt, hlabtw.1, hlabtw.2, htgttw.1, htgttw.2]
  simp [List.isEmpty_iff, hlabne, htgtne]

lemma matchLinkAt_sound (l tgt rest : List Char)
    (h : matchLinkAt l = some (tgt, rest)) :
    ∃ lab, validLabel lab ∧ validTarget tgt ∧ l = linkOcc lab tgt ++ rest := by
  unfold matchLinkAt at h
  split at h
  case h_2 => exact absurd h (by simp)
  case h_1 l r =>
    simp only at h
    split at h
    case isTrue => exact absurd h (by simp)
    case isFalse hne =>
      split at h
      case h_2 => exact absurd h (by simp)
      case h_1 rest1 rest2 heq =>
        split at h
        case isTrue => exact absurd h (by simp)
        case isFalse hne2 =>
          split at h
          case h_2 => exact absurd h (by simp)
          case h_1 rest3 rest4 heq2 =>
            simp only [Option.some.injEq, Prod.mk.injEq] at h
            obtain ⟨h1, h2⟩ := h
            refine ⟨r.takeWhile isLabelChar, ?_, ?_, ?_⟩
            · constructor
              · simpa [List.isEmpty_iff] using hne
              · exact fun c hc => List.mem_takeWhile_imp hc
            · constructor
              · rw [← h1]
                simpa [List.isEmpty_iff] using hne2
              · rw [← h1]
                exact fun c hc => List.mem_takeWhile_imp hc
            · have e1 : linkOcc (r.takeWhile isLabelChar) tgt ++ rest =
                  '[' :: (r.takeWhile isLabelChar ++
                    (']' :: '(' :: (tgt ++ ')' :: rest))) := by
                simp [linkOcc]
              have hr : r = r.takeWhile isLabelChar ++ (']' :: '(' :: rest2) := by
                rw [← heq]
                exact (List.takeWhile_append_dropWhile isLabelChar r).symm
              rw [e1]
              conv_lhs => rw [hr]
              simp only [List.cons.injEq, true_and]
              congr 1
              simp only [List.cons.injEq, true_and]
              rw [← h1, ← h2, ← heq2]
              exact (List.takeWhile_append_dropWhile isTargetChar rest2).symm

lemma linkOcc_length (lab tgt : List Char) :
    (linkOcc lab tgt).length = lab.length + tgt.length + 4 := by
  simp [linkOcc]
  omega

lemma matchLinkAt_consumes (l tgt rest : List Char)
    (h : matchLinkAt l = some (tgt, rest)) : rest.length + 6 ≤ l.length := by
  obtain ⟨lab, hlab, htgt, hl⟩ := matchLinkAt_sound l tgt rest h
  have h1 : 0 < lab.length := List.length_pos.mpr hlab.1
  have h2 : 0 < tgt.length := List.length_pos.mpr htgt.1
  rw [hl]
  simp [linkOcc_length]
  omega

lemma findLinksPosFuel_map_snd : ∀ fuel i l,
    (findLinksPosFuel fuel i l).map Prod.snd = findLinksFuel fuel l := by
  intro fuel
  induction fuel with
  | zero => intro i l; rfl
  | succ f ih =>
    intro i l
    cases l with
    | nil => rfl
    | cons c rest =>
      cases hm : matchLinkAt (c :: rest) with
      | none => simp [findLinksPosFuel, findLinksFuel, hm, ih]
      | some pr =>
        obtain ⟨tgt, rest'⟩ := pr
        simp [findLinksPosFuel, findLinksFuel, hm, ih]

lemma findLinks_eq_map_snd (l : List Char) :
    findLinks l = (findLinksPos l).map Prod.snd := by
  rw [findLinks, findLinksPos, findLinksPosFuel_map_snd]

lemma findLinksPosFuel_pos_le : ∀ fuel i l e, e ∈ findLinksPosFuel fuel i l → i ≤ e.1 := by
  intro fuel
  induction fuel with
  | zero => intro i l e he; simp [findLinksPosFuel] at he
  | succ f ih =>
    intro i l e he
    cases l with
    | nil => simp [findLinksPosFuel] at he
    | cons c rest =>
      cases hm : matchLinkAt (c :: rest) with
      | none =>
        simp only [findLinksPosFuel, hm] at he
        have := ih (i + 1) rest e he
        omega
      | some pr =>
        obtain ⟨tgt, rest'⟩ := pr
        simp only [findLinksPosFuel, hm, List.mem_cons] at he
        rcases he with rfl | he
        · rfl
        · have := ih _ rest' e he
          omega

lemma findLinksPosFuel_pairwise : ∀ fuel i l,
    List.Pairwise (fun a b : Nat × List Char => a.1 < b.1) (findLinksPosFuel fuel i l) := by
  intro fuel
  induction fuel with
  | zero => intro i l; simp [findLinksPosFuel]
  | succ f ih =>
    intro i l
    cases l with
    | nil => simp [findLinksPosFuel]
    | cons c rest =>
      cases hm : matchLinkAt (c :: rest) with
      | none =>
        simp only [findLinksPosFuel, hm]
        exact ih (i + 1) rest
      | some pr =>
        obtain ⟨tgt, rest'⟩ := pr
        have hcon := matchLinkAt_consumes _ _ _ hm
        simp only [findLinksPosFuel, hm]
        refine List.pairwise_cons.mpr ⟨?_, ih _ rest'⟩
        intro e he
        have hle := findLinksPosFuel_pos_le f _ rest' e he
        simp only [List.length_cons] at hcon hle
        omega

lemma findLinksPosFuel_complete :
    ∀ fuel i (pre lab tgt post : List Char),
      validLabel lab → validTarget tgt →
      (pre ++ linkOcc lab tgt ++ post).length ≤ fuel →
      noOverlapBefore (pre ++ linkOcc lab tgt ++ post) pre.length →
      (i + pre.length, tgt) ∈ findLinksPosFuel fuel i (pre ++ linkOcc lab tgt ++ post) := by
  intro fuel
  induction fuel with
  | zero =>
    intro i pre lab tgt post hlab htgt hlen hno
    exfalso
    simp [linkOcc_length] at hlen
  | succ f ih =>
    intro i pre lab tgt post hlab htgt hlen hno
    rcases hl : pre ++ linkOcc lab tgt ++ post with _ | ⟨c, rest⟩
    · exfalso
      have hll := congrArg List.length hl
      simp [linkOcc_length] at hll
    · have hlinelen : (pre ++ linkOcc lab tgt ++ post).length = (c :: rest).length :=
        congrArg List.length hl
      cases hm : matchLinkAt (c :: rest) with
      | some pr =>
        obtain ⟨cap, rest'⟩ := pr
        have hcon := matchLinkAt_consumes _ _ _ hm
        obtain ⟨mlab, hmlab, hmtgt, hmdecomp⟩ := matchLinkAt_sound (c :: rest) cap rest' hm
        have hmlEq : (c :: rest).length = (linkOcc mlab cap).length + rest'.length := by
          rw [hmdecomp]; simp
        by_cases hpre : pre = []
        · subst hpre
          have hocc : linkOcc lab tgt ++ post = c :: rest := by simpa using hl
          have hcomp : matchLinkAt (c :: rest) = some (tgt, post) := by
            rw [← hocc]
            exact matchLinkAt_complete lab tgt post hlab htgt
          rw [hm] at hcomp
          simp only [Option.some.injEq, Prod.mk.injEq] at hcomp
          obtain ⟨hcap, hrest'⟩ := hcomp
          simp only [findLinksPosFuel, hm, List.length_nil, Nat.add_zero, List.mem_cons]
          exact Or.inl (by rw [hcap])
        · -- the match found at this position ends at or before the occurrence
          have hline' : pre ++ linkOcc lab tgt ++ post = linkOcc mlab cap ++ rest' := by
            rw [hl]; exact hmdecomp
          have hmlen : (linkOcc mlab cap).length ≤ pre.length := by
            have h0 := hno 0 (by simpa [List.length_pos] using hpre) cap rest'
              (by simpa [hl] using hm)
            omega
          have happ : pre ++ (linkOcc lab tgt ++ post) = linkOcc mlab cap ++ rest' := by
            rw [← List.append_assoc]; exact hline'
          have hsplit : ∃ pre₂, pre = linkOcc mlab cap ++ pre₂ ∧
              rest' = pre₂ ++ (linkOcc lab tgt ++ post) := by
            rcases List.append_eq_append_iff.mp happ with ⟨a', ha1, ha2⟩ | ⟨pre₂, hp1, hp2⟩
            · have hl1 := congrArg List.length ha1
              simp only [List.length_append] at hl1
              have ha0 : a' = [] :=
                List.eq_nil_of_length_eq_zero (by omega)
              subst ha0
              exact ⟨[], by simpa using ha1.symm, by simpa using ha2.symm⟩
            · exact ⟨pre₂, hp1, hp2⟩
          obtain ⟨pre₂, hp1, hp2⟩ := hsplit
          have hplen : pre.length = (linkOcc mlab cap).length + pre₂.length := by
            rw [hp1]; simp
          have hrlen : rest'.length = pre₂.length + (linkOcc lab tgt ++ post).length := by
            rw [hp2]; simp
          simp only [findLinksPosFuel, hm, List.mem_cons]
          refine Or.inr ?_
          have hidx : (c :: rest).length - rest'.length = (linkOcc mlab cap).length := by
            omega
          rw [hidx]
          have hgoal : (i + pre.length, tgt) =
              ((i + (linkOcc mlab cap).length) + pre₂.length, tgt) := by
            rw [hplen]; ring_nf
          rw [hgoal]
          have hp2' : rest' = pre₂ ++ linkOcc lab tgt ++ post := by
            rw [hp2, List.append_assoc]
          rw [hp2']
          refine ih (i + (linkOcc mlab cap).length) pre₂ lab tgt post hlab htgt ?_ ?_
          · have : rest'.length = (pre₂ ++ linkOcc lab tgt ++ post).length := by
              rw [hp2']
            omega
          · intro j hj cap2 r2 hm2
            have hdrop : (pre₂ ++ linkOcc lab tgt ++ post).drop j =
                (pre ++ linkOcc lab tgt ++ post).drop ((linkOcc mlab cap).length + j) := by
              rw [hline', ← hp2']
              rw [← List.drop_drop, List.drop_left]
            rw [hdrop] at hm2
            have hb := hno ((linkOcc mlab cap).length + j) (by omega) cap2 r2 hm2
            have : (pre₂ ++ linkOcc lab tgt ++ post).length = rest'.length := by
              rw [hp2']
            omega
      | none =>
        by_cases hpre : pre = []
        · exfalso
          subst hpre
          have hocc : linkOcc lab tgt ++ post = c :: rest := by simpa using hl
          have hcomp : matchLinkAt (c :: rest) = some (tgt, post) := by
            rw [← hocc]
            exact matchLinkAt_complete lab tgt post hlab htgt
          rw [hm] at hcomp
          exact absurd hcomp (by simp)
        · obtain ⟨p0, pre₂, rfl⟩ := List.exists_cons_of_ne_nil hpre
          have hl' : p0 :: (pre₂ ++ linkOcc lab tgt ++ post) = c :: rest := by
            simpa using hl
          simp only [List.cons.injEq] at hl'
          obtain ⟨hp0, hrest⟩ := hl'
          simp only [findLinksPosFuel, hm]
          have hgoal : (i + (p0 :: pre₂).length, tgt) =
              ((i + 1) + pre₂.length, tgt) := by
            simp
            omega
          rw [hgoal, ← hrest]
          refine ih (i + 1) pre₂ lab tgt post hlab htgt ?_ ?_
          · have : rest.length + 1 = (c :: rest).length := by simp
            have h2 : (pre₂ ++ linkOcc lab tgt ++ post).length = rest.length := by
              rw [hrest]
            omega
          · intro j hj cap2 r2 hm2
            have hdrop : (pre₂ ++ linkOcc lab tgt ++ post).drop j =
                ((p0 :: pre₂) ++ linkOcc lab tgt ++ post).drop (1 + j) := by
              have : ((p0 :: pre₂) ++ linkOcc lab tgt ++ post) =
                  p0 :: (pre₂ ++ linkOcc lab tgt ++ post) := by simp
              rw [this]
              rw [← List.drop_drop]
              rfl
            rw [hdrop] at hm2
            have hb := hno (1 + j) (by simp; omega) cap2 r2 hm2
            have h2 : ((p0 :: pre₂) ++ linkOcc lab tgt ++ post).length =
                (pre₂ ++ linkOcc lab tgt ++ post).length + 1 := by simp
            simp only [List.length_cons] at hb
            omega

lemma filter_fst_eq_of_pairwise {l : List (Nat × List Char)}
    (hpw : List.Pairwise (fun a b : Nat × List Char => a.1 < b.1) l)
    {e : Nat × List Char} (he : e ∈ l) :
    l.filter (fun x => x.1 == e.1) = [e] := by
  induction l with
  | nil => cases he
  | cons a t ih =>
    obtain ⟨hall, hpw'⟩ := List.pairwise_cons.mp hpw
    rcases List.mem_cons.mp he with rfl | het
    · simp only [List.filter_cons, beq_self_eq_true, if_true]
      have hnil : t.filter (fun x => x.1 == e.1) = [] := by
        rw [List.filter_eq_nil_iff]
        intro x hx
        simp only [beq_iff_eq]
        exact Nat.ne_of_gt (hall x hx)
      rw [hnil]
    · have hne : (a.1 == e.1) = false := by
        rw [beq_eq_false_iff_ne]
        exact Nat.ne_of_lt (hall e het)
      simp only [List.filter_cons, hne, Bool.false_eq_true, if_false]
      exact ih hpw' het

/-! ## C5: counterexample and amended theorem -/

/-- C5 counterexample: the line `[a]([b)](c)` contains the substring
`[b)](c)`, which matches the canonical inline-link syntax of the regex
(label `b)`, captured target `c`), yet scanning the line produces exactly one
`Link`, whose target is `[b`: the occurrence `[b)](c)` overlaps the earlier
leftmost match `[a]([b)` and therefore produces no `Link` at all. -/
theorem overlapping_occurrence_produces_no_link :
    "[a]([b)](c)".data =
        "[a](".data ++ linkOcc "b)".data "c".data ++ ([] : List Char) ∧
    validLabel "b)".data ∧ validTarget "c".data ∧
    scanLine "README.md" 1 "[a]([b)](c)".data =
      [Link.new "README.md" 1 "[b"] := by
  refine ⟨by decide, by decide, by decide, by decide⟩

/-- C5 (amended): every substring of a scanned line matching the canonical
inline-link syntax `[label](target)` of the regex produces exactly one `Link`
whose target equals the captured target substring byte-for-byte — provided no
match of the syntax starting earlier in the line extends past the occurrence's
start; an occurrence overlapping an earlier match produces no Link (the
matcher scans leftmost, non-overlapping).  "Exactly one" is expressed by
position: among all matches found on the line, exactly one starts at the
occurrence's position, and its capture is the occurrence's target. -/
theorem scanner_one_byte_exact_link_per_occurrence (path : String) (lnum : Nat)
    (pre lab tgt post : List Char)
    (hlab : validLabel lab) (htgt : validTarget tgt)
    (hno : noOverlapBefore (pre ++ linkOcc lab tgt ++ post) pre.length) :
    (findLinksPos (pre ++ linkOcc lab tgt ++ post)).filter
        (fun e => e.1 == pre.length) = [(pre.length, tgt)] ∧
    Link.new path lnum tgt.asString ∈
      scanLine path lnum (pre ++ linkOcc lab tgt ++ post) := by
  have hmem : (0 + pre.length, tgt) ∈ findLinksPos (pre ++ linkOcc lab tgt ++ post) :=
    findLinksPosFuel_complete _ 0 pre lab tgt post hlab htgt (Nat.le_refl _) hno
  rw [Nat.zero_add] at hmem
  have hpw := findLinksPosFuel_pairwise (pre ++ linkOcc lab tgt ++ post).length 0
    (pre ++ linkOcc lab tgt ++ post)
  constructor
  · exact filter_fst_eq_of_pairwise hpw hmem
  · have htgtmem : tgt ∈ findLinks (pre ++ linkOcc lab tgt ++ post) := by
      rw [findLinks_eq_map_snd]
      exact List.mem_map_of_mem Prod.snd hmem
    simp only [scanLine, List.mem_map]
    exact ⟨tgt, htgtmem, rfl⟩

theorem scanner_one_byte_exact_link_per_occurrence_witness :
    Link.new "a.md" 1 ("d".data.asString) ∈
      scanLine "a.md" 1 ("[x](y) ".data ++ linkOcc "c".data "d".data ++ []) :=
  (scanner_one_byte_exact_link_per_occurrence "a.md" 1 "[x](y) ".data "c".data "d".data []
    (by decide) (by decide) (by decide)).2

end CargoLinks
